import Mathlib

/-!
Formal model of the owl-face-rec core: the cosine-similarity metric, the
in-memory `EmbeddingsStore` with `add` and `find_similar` (filter by
threshold, stable sort by score descending, truncate to `limit`), the
`register` handler's durable-write-then-memory-insert ordering, and the
`preprocess_image` normalizer.

Modelling conventions:
* `f32` values are idealized as real numbers (`ℝ`); the one place where the
  IEEE special value NaN changes control flow (the `similarity >= threshold`
  filter inside `find_similar`) is additionally modelled exactly, with
  `Option ℝ` standing for "a float that may be NaN" (`none` = NaN).
* `Uuid` (a 128-bit opaque token) is modelled as `Nat`.
* Rust's stable `sort_by` with comparator `b.2.partial_cmp(&a.2)
  .unwrap_or(Equal)` is modelled by the stable `List.mergeSort` with the
  corresponding boolean relation "`a` may precede `b`", i.e.
  `cmp a b ≠ Greater`, which for real scores is `b.score ≤ a.score`.
* External collaborators (ONNX inference, the Postgres pool, the image
  decoder/resizer) are parameters: `register` takes the embedding-extraction
  outcome and the durable-write outcome as inputs, and `preprocess_image`
  takes the already-resized RGB pixel grid.
-/

namespace OwlFaceRec

/-- Model of `uuid::Uuid`, an opaque 128-bit identifier. -/
abbrev Uuid := Nat

/-- Model of `EmbeddingEntry` (src/main.rs lines 21-26). -/
structure EmbeddingEntry where
  uuid : Uuid
  origin : String
  embedding : List ℝ

/-- Model of `EmbeddingsStore` (src/main.rs lines 48-51): a vector of entries. -/
structure EmbeddingsStore where
  entries : List EmbeddingEntry

/-- Model of `EmbeddingsStore::new` (src/main.rs lines 54-58). -/
def EmbeddingsStore.new : EmbeddingsStore := ⟨[]⟩

/-- Model of `EmbeddingsStore::add` (src/main.rs lines 60-66):
`self.entries.push(EmbeddingEntry { uuid, embedding, origin })`. -/
def EmbeddingsStore.add (s : EmbeddingsStore) (uuid : Uuid) (origin : String)
    (embedding : List ℝ) : EmbeddingsStore :=
  ⟨s.entries ++ [⟨uuid, origin, embedding⟩]⟩

/-- Model of `EmbeddingsStore::len` (src/main.rs lines 93-95). -/
def EmbeddingsStore.len (s : EmbeddingsStore) : ℕ := s.entries.length

/-- The accumulation loop of `cosine_similarity` (src/main.rs lines 30-38):
starting from `(0.0, 0.0, 0.0)`, for each `i` in `0..a.len().min(b.len())`
accumulate `(dot_product + a[i]*b[i], norm_a + a[i]*a[i], norm_b + b[i]*b[i])`.
Indexing is in bounds throughout the loop, so `a[i]` is rendered as
`a.getD i 0`; the checked variant `dotNormsChecked` below certifies the
in-bounds property. -/
def dotNorms (a b : List ℝ) : ℝ × ℝ × ℝ :=
  (List.range (min a.length b.length)).foldl
    (fun acc i =>
      (acc.1 + a.getD i 0 * b.getD i 0,
       acc.2.1 + a.getD i 0 * a.getD i 0,
       acc.2.2 + b.getD i 0 * b.getD i 0))
    (0, 0, 0)

/-- Model of `cosine_similarity` (src/main.rs lines 29-45): run the
accumulation loop; if `norm_a == 0.0 || norm_b == 0.0` return `0.0`, else
return `dot_product / (norm_a.sqrt() * norm_b.sqrt())`. -/
noncomputable def cosine_similarity (a b : List ℝ) : ℝ :=
  let dn := dotNorms a b
  if dn.2.1 = 0 ∨ dn.2.2 = 0 then 0
  else dn.1 / (Real.sqrt dn.2.1 * Real.sqrt dn.2.2)

/-- The accumulation loop of `cosine_similarity` with every index access
checked: `a[i]` and `b[i]` are looked up with `List.getElem?`, and the whole
computation aborts with `none` if any access is out of bounds. Used to state
that the loop of src/main.rs lines 34-38 performs no out-of-bounds access. -/
def dotNormsChecked (a b : List ℝ) : Option (ℝ × ℝ × ℝ) :=
  (List.range (min a.length b.length)).foldl
    (fun acc i => do
      let s ← acc
      let x ← a[i]?
      let y ← b[i]?
      pure (s.1 + x * y, s.2.1 + x * x, s.2.2 + y * y))
    (some (0, 0, 0))

/-- `cosine_similarity` with checked index accesses (src/main.rs lines 29-45):
returns `none` iff some loop iteration would access an index out of bounds. -/
noncomputable def cosineSimilarityChecked (a b : List ℝ) : Option ℝ :=
  (dotNormsChecked a b).map (fun dn =>
    if dn.2.1 = 0 ∨ dn.2.2 = 0 then 0
    else dn.1 / (Real.sqrt dn.2.1 * Real.sqrt dn.2.2))

/-- The pre-sort candidate list of `EmbeddingsStore::find_similar`
(src/main.rs lines 74-82): map each entry, in insertion order, to
`(uuid, origin, cosine_similarity(query, entry.embedding))` (rayon's indexed
`par_iter().map().filter().collect()` preserves order), then keep those with
`similarity >= threshold`. -/
noncomputable def candidates (s : EmbeddingsStore) (query : List ℝ)
    (threshold : ℝ) : List (Uuid × String × ℝ) :=
  (s.entries.map (fun e => (e.uuid, e.origin, cosine_similarity query e.embedding))).filter
    (fun r => decide (r.2.2 ≥ threshold))

/-- The "may precede" relation of the stable sort in `find_similar`
(src/main.rs line 85): `results.sort_by(|a, b| b.2.partial_cmp(&a.2)
.unwrap_or(Equal))` lets `a` precede `b` exactly when that comparator is not
`Greater`, i.e. when `b.2 ≤ a.2` (scores are real, so `partial_cmp` is total
here; the NaN case is modelled separately by `fpLeSort`). -/
noncomputable def simLE (x y : Uuid × String × ℝ) : Bool :=
  decide (y.2.2 ≤ x.2.2)

/-- Model of `EmbeddingsStore::find_similar` (src/main.rs lines 68-91):
score and filter the entries, stably sort by similarity descending, then
`truncate(limit)`. -/
noncomputable def find_similar (s : EmbeddingsStore) (query : List ℝ)
    (threshold : ℝ) (limit : ℕ) : List (Uuid × String × ℝ) :=
  (((candidates s query threshold).mergeSort simLE).take limit)

/-- Error of the durable write (the sqlx `INSERT INTO targets` failing). -/
inductive DbError where
  | writeFailed
deriving DecidableEq

/-- Model of the `register` handler (src/handlers.rs lines 124-172).
The embedding extraction (base64 decode, image load, preprocessing, ONNX
inference) is an external collaborator, so its outcome is a parameter
`embeddingResult` (an early-return status code, or the embedding vector);
the durable write is the collaborator `dbWrite`; `lockOk` tells whether
locking the shared store succeeds (a poisoned mutex returns 500 without
touching the store). On a successful durable write and lock, the embedding
is appended to the in-memory store and 201 CREATED is returned; on a failed
durable write the handler returns 500 and the store is left unchanged. -/
def register (target_uuid : Uuid) (origin : String)
    (embeddingResult : Except ℕ (List ℝ))
    (dbWrite : List ℝ → Except DbError Unit) (lockOk : Bool)
    (store : EmbeddingsStore) : Except ℕ ℕ × EmbeddingsStore :=
  match embeddingResult with
  | .error status => (.error status, store)
  | .ok embedding_vec =>
    match dbWrite embedding_vec with
    | .ok _ =>
      if lockOk then
        (.ok 201, store.add target_uuid origin embedding_vec)
      else
        (.error 500, store)
    | .error _ => (.error 500, store)

/-- Model of an `f32` that may be NaN: `none` is NaN, `some x` a real value. -/
abbrev FP := Option ℝ

/-- IEEE `>=` on possibly-NaN floats, as used by the filter in
`find_similar` (src/main.rs line 81): any comparison involving NaN is false. -/
noncomputable def fpGe (x y : FP) : Bool :=
  match x, y with
  | some a, some b => decide (b ≤ a)
  | _, _ => false

/-- The "may precede" relation of `sort_by` in `find_similar`
(src/main.rs line 85) on possibly-NaN scores: `b.2.partial_cmp(&a.2)` is
`None` when either score is NaN, and `.unwrap_or(Equal)` then yields
`Equal`, which is not `Greater`, so either order is allowed. -/
noncomputable def fpLeSort (x y : Uuid × String × FP) : Bool :=
  match x.2.2, y.2.2 with
  | some a, some b => decide (b ≤ a)
  | _, _ => true

/-- The filter/sort/truncate pipeline of `find_similar` (src/main.rs lines
74-91) over scored rows whose similarity may be NaN (`none`): keep rows with
`similarity >= threshold` under IEEE semantics, stably sort with the
`partial_cmp ... unwrap_or(Equal)` comparator, truncate to `limit`. The
per-row score is left as input so that the model covers every value the f32
cosine computation could produce, NaN included. -/
noncomputable def find_similarFP (scored : List (Uuid × String × FP))
    (threshold : FP) (limit : ℕ) : List (Uuid × String × FP) :=
  ((scored.filter (fun r => fpGe r.2.2 threshold)).mergeSort fpLeSort).take limit

/-- An RGB pixel of the (already resized) image, each component a `u8`
value idealized as a real number. -/
structure Pixel where
  r : ℝ
  g : ℝ
  b : ℝ

/-- The resized RGB pixel grid: component `img x y` is the pixel at column
`x`, row `y` (the iteration order of `enumerate_pixels`). -/
abbrev RgbImage := ℕ → ℕ → Pixel

/-- One store into the zero-initialized tensor
`input_tensor[[n0, c0, y0, x0]] = v` (src/handlers.rs lines 247-249),
with the tensor represented as a function of its four indices. -/
def updT (t : ℕ → ℕ → ℕ → ℕ → ℝ) (n0 c0 y0 x0 : ℕ) (v : ℝ) :
    ℕ → ℕ → ℕ → ℕ → ℝ :=
  fun n c y x => if n = n0 ∧ c = c0 ∧ y = y0 ∧ x = x0 then v else t n c y x

/-- The body of the `enumerate_pixels` loop (src/handlers.rs lines 242-250):
write `(b - 127.5) / 128.0` to channel 0, `(g - 127.5) / 128.0` to channel 1
and `(r - 127.5) / 128.0` to channel 2, at row `y`, column `x`. -/
noncomputable def writePixel (img : RgbImage) (t : ℕ → ℕ → ℕ → ℕ → ℝ) (xy : ℕ × ℕ) :
    ℕ → ℕ → ℕ → ℕ → ℝ :=
  let p := img xy.1 xy.2
  updT (updT (updT t 0 0 xy.2 xy.1 ((p.b - 127.5) / 128))
      0 1 xy.2 xy.1 ((p.g - 127.5) / 128))
    0 2 xy.2 xy.1 ((p.r - 127.5) / 128)

/-- The coordinates `(x, y)` visited by `enumerate_pixels` over a
`target_width × target_height` image. -/
def pixelCoords (target_width target_height : ℕ) : List (ℕ × ℕ) :=
  (List.range target_height).flatMap
    (fun y => (List.range target_width).map (fun x => (x, y)))

/-- Model of `preprocess_image` from the resized RGB image on
(src/handlers.rs lines 238-252): start from `Array::zeros((1, 3, H, W))` and
run the `enumerate_pixels` loop. The decode and `resize_exact` steps belong
to the external image library, so the model takes the resized pixel grid as
input. -/
noncomputable def preprocess_image (img : RgbImage) (target_width target_height : ℕ) :
    ℕ → ℕ → ℕ → ℕ → ℝ :=
  (pixelCoords target_width target_height).foldl (writePixel img)
    (fun _ _ _ _ => 0)

/-- The value `preprocess_image` writes for channel `c` at a pixel `p`
(`c = 0` blue, `c = 1` green, `c = 2` red). -/
noncomputable def chanVal (c : ℕ) (p : Pixel) : ℝ :=
  if c = 0 then (p.b - 127.5) / 128
  else if c = 1 then (p.g - 127.5) / 128
  else (p.r - 127.5) / 128

/-- Dot product as the spec words it: element-wise over the first
`min (len a) (len b)` elements. -/
def dotSpec (a b : List ℝ) : ℝ :=
  (List.zipWith (fun x y => x * y) a b).sum

/-- Euclidean norm of a vector, as the spec words it. -/
noncomputable def normSpec (v : List ℝ) : ℝ :=
  Real.sqrt ((v.map (fun x => x * x)).sum)

/-- Modelled from the spec's words (§4.3, for the refinement claim about
`cosine_similarity`): `dot(a,b) / (‖a‖·‖b‖)` over the common prefix of
length `min (len a) (len b)`, and `0` if either norm over that prefix is
zero. -/
noncomputable def cosineSpec (a b : List ℝ) : ℝ :=
  let k := min a.length b.length
  if normSpec (a.take k) = 0 ∨ normSpec (b.take k) = 0 then 0
  else dotSpec a b / (normSpec (a.take k) * normSpec (b.take k))

/-! ### Supporting lemmas -/

/-- The triple accumulation over `List.range n` computes the three sums. -/
lemma foldl_range_triple (f g h : ℕ → ℝ) (n : ℕ) (c₁ c₂ c₃ : ℝ) :
    (List.range n).foldl
      (fun acc i => (acc.1 + f i, acc.2.1 + g i, acc.2.2 + h i)) (c₁, c₂, c₃)
    = (c₁ + ∑ i ∈ Finset.range n, f i,
       c₂ + ∑ i ∈ Finset.range n, g i,
       c₃ + ∑ i ∈ Finset.range n, h i) := by
  induction n with
  | zero => simp
  | succ n ih =>
    rw [List.range_succ, List.foldl_append, ih]
    simp [Finset.sum_range_succ, add_assoc]

/-- `dotNorms` computes the dot product and the two squared norms over the
common prefix. -/
lemma dotNorms_eq (a b : List ℝ) :
    dotNorms a b =
      (∑ i ∈ Finset.range (min a.length b.length), a.getD i 0 * b.getD i 0,
       ∑ i ∈ Finset.range (min a.length b.length), a.getD i 0 * a.getD i 0,
       ∑ i ∈ Finset.range (min a.length b.length), b.getD i 0 * b.getD i 0) := by
  rw [dotNorms, foldl_range_triple]
  simp

/-- `cosine_similarity` in terms of the three sums. -/
lemma cosine_similarity_sums (a b : List ℝ) :
    cosine_similarity a b =
      if (∑ i ∈ Finset.range (min a.length b.length), a.getD i 0 * a.getD i 0) = 0 ∨
         (∑ i ∈ Finset.range (min a.length b.length), b.getD i 0 * b.getD i 0) = 0 then 0
      else (∑ i ∈ Finset.range (min a.length b.length), a.getD i 0 * b.getD i 0) /
        (Real.sqrt (∑ i ∈ Finset.range (min a.length b.length), a.getD i 0 * a.getD i 0) *
         Real.sqrt (∑ i ∈ Finset.range (min a.length b.length), b.getD i 0 * b.getD i 0)) := by
  rw [cosine_similarity, dotNorms_eq]

/-- A list's sum of squares as a sum over indices. -/
lemma sum_sq_list (v : List ℝ) :
    (v.map (fun x => x * x)).sum
      = ∑ i ∈ Finset.range v.length, v.getD i 0 * v.getD i 0 := by
  induction v with
  | nil => simp
  | cons x xs ih =>
    simp only [List.map_cons, List.sum_cons, List.length_cons, ih,
      Finset.sum_range_succ']
    simp [add_comm]

/-- The zipWith dot product as a sum over indices of the common prefix. -/
lemma dot_zipWith (a : List ℝ) : ∀ b : List ℝ,
    (List.zipWith (fun x y => x * y) a b).sum
      = ∑ i ∈ Finset.range (min a.length b.length), a.getD i 0 * b.getD i 0 := by
  induction a with
  | nil => intro b; simp
  | cons x xs ih =>
    intro b
    cases b with
    | nil => simp
    | cons y ys =>
      simp only [List.zipWith_cons_cons, List.sum_cons, List.length_cons,
        Nat.succ_min_succ, Finset.sum_range_succ', ih]
      simp [add_comm]

/-- Reading inside the taken prefix agrees with reading the original list. -/
lemma getD_take (v : List ℝ) (k i : ℕ) (h : i < k) :
    (v.take k).getD i 0 = v.getD i 0 := by
  rw [List.getD_eq_getElem?_getD, List.getD_eq_getElem?_getD, List.getElem?_take,
    if_pos h]

/-- The spec's norm of the common prefix equals the square root of the
loop's squared-norm sum. -/
lemma normSpec_take (a : List ℝ) (k : ℕ) (hk : k ≤ a.length) :
    normSpec (a.take k)
      = Real.sqrt (∑ i ∈ Finset.range k, a.getD i 0 * a.getD i 0) := by
  rw [normSpec, sum_sq_list]
  congr 1
  rw [List.length_take, min_eq_left hk]
  exact Finset.sum_congr rfl fun i hi => by
    rw [getD_take a k i (Finset.mem_range.mp hi)]

/-- Sums of squares are nonnegative. -/
lemma sum_sq_nonneg (a : List ℝ) (k : ℕ) :
    0 ≤ ∑ i ∈ Finset.range k, a.getD i 0 * a.getD i 0 :=
  Finset.sum_nonneg fun _ _ => mul_self_nonneg _

/-- Cosine similarity of a vector with a nonzero coordinate against itself
is exactly `1` (in the real-number idealization of `f32`). -/
lemma cosine_self (v : List ℝ) (hv : ∃ x ∈ v, x ≠ 0) :
    cosine_similarity v v = 1 := by
  have hS : 0 < ∑ i ∈ Finset.range v.length, v.getD i 0 * v.getD i 0 := by
    obtain ⟨x, hx, hx0⟩ := hv
    obtain ⟨i, hi, hxi⟩ := List.mem_iff_getElem.mp hx
    refine Finset.sum_pos' (fun j _ => mul_self_nonneg _)
      ⟨i, Finset.mem_range.mpr hi, ?_⟩
    rw [List.getD_eq_getElem _ _ hi, hxi]
    exact mul_self_pos.mpr hx0
  rw [cosine_similarity_sums, min_self,
    if_neg (by push_neg; exact ⟨ne_of_gt hS, ne_of_gt hS⟩),
    Real.mul_self_sqrt hS.le, div_self hS.ne']

/-- C4: `cosine_similarity a b` equals the spec's formula
`dot(a,b) / (‖a‖·‖b‖)` computed over the first `min (len a) (len b)`
elements, with result `0` whenever either prefix norm is zero; in
particular it is `0` whenever either input is all-zero. -/
theorem cosine_similarity_matches_spec (a b : List ℝ) :
    cosine_similarity a b = cosineSpec a b ∧
      ((∀ x ∈ a, x = 0) → cosine_similarity a b = 0) ∧
      ((∀ x ∈ b, x = 0) → cosine_similarity a b = 0) := by
  refine ⟨?_, ?_, ?_⟩
  · have hA := normSpec_take a (min a.length b.length) (min_le_left _ _)
    have hB := normSpec_take b (min a.length b.length) (min_le_right _ _)
    rw [cosine_similarity_sums]
    simp only [cosineSpec, hA, hB, dotSpec, dot_zipWith]
    exact if_congr
      (or_congr (Real.sqrt_eq_zero (sum_sq_nonneg a _)).symm
        (Real.sqrt_eq_zero (sum_sq_nonneg b _)).symm)
      rfl rfl
  · intro h
    have hz : ∀ i ∈ Finset.range (min a.length b.length),
        a.getD i 0 * a.getD i 0 = 0 := by
      intro i hi
      have hia : i < a.length :=
        lt_of_lt_of_le (Finset.mem_range.mp hi) (min_le_left _ _)
      rw [List.getD_eq_getElem _ _ hia, h _ (List.getElem_mem hia), mul_zero]
    rw [cosine_similarity_sums, if_pos (Or.inl (Finset.sum_eq_zero hz))]
  · intro h
    have hz : ∀ i ∈ Finset.range (min a.length b.length),
        b.getD i 0 * b.getD i 0 = 0 := by
      intro i hi
      have hib : i < b.length :=
        lt_of_lt_of_le (Finset.mem_range.mp hi) (min_le_right _ _)
      rw [List.getD_eq_getElem _ _ hib, h _ (List.getElem_mem hib), mul_zero]
    rw [cosine_similarity_sums, if_pos (Or.inr (Finset.sum_eq_zero hz))]

/-- C4 witness: an all-zero first input yields similarity `0`. -/
theorem cosine_similarity_matches_spec_witness :
    cosine_similarity [0, 0] [5] = 0 :=
  (cosine_similarity_matches_spec [0, 0] [5]).2.1 (by simp)

/-- C9: cosine similarity is symmetric in its two arguments, including for
vectors of different lengths. -/
theorem cosine_similarity_comm (a b : List ℝ) :
    cosine_similarity a b = cosine_similarity b a := by
  rw [cosine_similarity_sums, cosine_similarity_sums,
    min_comm b.length a.length]
  have hd : (∑ i ∈ Finset.range (min a.length b.length),
        b.getD i 0 * a.getD i 0)
      = ∑ i ∈ Finset.range (min a.length b.length), a.getD i 0 * b.getD i 0 :=
    Finset.sum_congr rfl fun i _ => mul_comm _ _
  rw [hd]
  exact (if_congr or_comm rfl (by rw [mul_comm])).symm

/-- If every index in `L` is in bounds for both lists, the checked
accumulation succeeds and agrees with the unchecked one. -/
lemma foldl_option_steps (a b : List ℝ) :
    ∀ L : List ℕ, (∀ i ∈ L, i < a.length ∧ i < b.length) →
    ∀ acc : ℝ × ℝ × ℝ,
      L.foldl (fun acc i => do
        let s ← acc
        let x ← a[i]?
        let y ← b[i]?
        pure (s.1 + x * y, s.2.1 + x * x, s.2.2 + y * y)) (some acc)
      = some (L.foldl (fun acc i =>
          (acc.1 + a.getD i 0 * b.getD i 0,
           acc.2.1 + a.getD i 0 * a.getD i 0,
           acc.2.2 + b.getD i 0 * b.getD i 0)) acc) := by
  intro L
  induction L with
  | nil => intro _ acc; rfl
  | cons i L ih =>
    intro hL acc
    obtain ⟨hia, hib⟩ := hL i (List.mem_cons_self i L)
    rw [List.foldl_cons, List.foldl_cons,
      show (do
          let s ← (some acc : Option (ℝ × ℝ × ℝ))
          let x ← a[i]?
          let y ← b[i]?
          pure (s.1 + x * y, s.2.1 + x * x, s.2.2 + y * y))
        = some (acc.1 + a.getD i 0 * b.getD i 0,
            acc.2.1 + a.getD i 0 * a.getD i 0,
            acc.2.2 + b.getD i 0 * b.getD i 0) by
        rw [List.getElem?_eq_getElem hia, List.getElem?_eq_getElem hib]
        simp [List.getD_eq_getElem?_getD, List.getElem?_eq_getElem hia,
          List.getElem?_eq_getElem hib]]
    exact ih (fun j hj => hL j (List.mem_cons_of_mem _ hj)) _

/-- The checked accumulation loop never goes out of bounds. -/
lemma dotNormsChecked_eq (a b : List ℝ) :
    dotNormsChecked a b = some (dotNorms a b) := by
  rw [dotNormsChecked, dotNorms]
  exact foldl_option_steps a b _
    (fun i hi => by
      have h := List.mem_range.mp hi
      exact ⟨lt_of_lt_of_le h (min_le_left _ _),
        lt_of_lt_of_le h (min_le_right _ _)⟩) _

/-- C8: for all vectors `a` and `b` of any lengths, the cosine-similarity
loop reads only indices below both lengths — the fully checked computation
succeeds (never `none`) and returns exactly the value of
`cosine_similarity`, a deterministic total function. -/
theorem cosine_similarity_no_oob (a b : List ℝ) :
    cosineSimilarityChecked a b = some (cosine_similarity a b) := by
  rw [cosineSimilarityChecked, dotNormsChecked_eq, Option.map_some']
  rfl

/-- The sort relation of `find_similar` is transitive. -/
lemma simLE_trans : ∀ a b c : Uuid × String × ℝ,
    simLE a b → simLE b c → simLE a c := by
  intro a b c hab hbc
  simp only [simLE, decide_eq_true_eq] at *
  exact le_trans hbc hab

/-- The sort relation of `find_similar` is total. -/
lemma simLE_total : ∀ a b : Uuid × String × ℝ, simLE a b || simLE b a := by
  intro a b
  simp only [simLE]
  rcases le_total a.2.2 b.2.2 with h | h <;> simp [h]

/-- C2: `find_similar` returns at most `limit` results, and every returned
similarity score is at least `threshold`. -/
theorem find_similar_limit_and_threshold (s : EmbeddingsStore) (q : List ℝ)
    (t : ℝ) (n : ℕ) :
    (find_similar s q t n).length ≤ n ∧
      ∀ r ∈ find_similar s q t n, t ≤ r.2.2 := by
  constructor
  · rw [find_similar, List.length_take]
    exact min_le_left _ _
  · intro r hr
    rw [find_similar] at hr
    have h1 : r ∈ (candidates s q t).mergeSort simLE := List.mem_of_mem_take hr
    have h2 : r ∈ candidates s q t := List.mem_mergeSort.mp h1
    exact of_decide_eq_true (List.mem_filter.mp h2).2

/-- Cosine similarity of the one-element vector `[1]` with itself. -/
lemma cosine_one_one : cosine_similarity [1] [1] = 1 :=
  cosine_self [1] ⟨1, by simp, one_ne_zero⟩

/-- Concrete evaluation of `candidates` on a one-entry store. -/
lemma candidates_one_entry :
    candidates ⟨[⟨5, "cam", [1]⟩]⟩ [1] (1 / 2) = [(5, "cam", 1)] := by
  rw [candidates]
  simp only [List.map_cons, List.map_nil, cosine_one_one]
  rw [List.filter_cons_of_pos (by simp only [decide_eq_true_eq]; norm_num)]
  simp

/-- Concrete evaluation of `find_similar` on a one-entry store. -/
lemma find_similar_one_entry :
    find_similar ⟨[⟨5, "cam", [1]⟩]⟩ [1] (1 / 2) 3 = [(5, "cam", 1)] := by
  rw [find_similar, candidates_one_entry, List.mergeSort_singleton]
  rfl

/-- C2 witness: a concrete store, query, threshold and limit where the
theorem's membership hypothesis is discharged at a concrete result. -/
theorem find_similar_limit_and_threshold_witness :
    ((5 : Uuid), "cam", (1 : ℝ)) ∈ find_similar ⟨[⟨5, "cam", [1]⟩]⟩ [1] (1 / 2) 3 ∧
      (1 / 2 : ℝ) ≤ 1 := by
  have hm : ((5 : Uuid), "cam", (1 : ℝ)) ∈
      find_similar ⟨[⟨5, "cam", [1]⟩]⟩ [1] (1 / 2) 3 := by
    rw [find_similar_one_entry]
    simp
  exact ⟨hm, (find_similar_limit_and_threshold ⟨[⟨5, "cam", [1]⟩]⟩ [1] (1 / 2) 3).2 _ hm⟩

/-- Taking a prefix commutes with filtering, up to the length of the prefix
of the filtered list. -/
lemma filter_take_ex {α : Type _} (p : α → Bool) :
    ∀ (n : ℕ) (l : List α), ∃ m, (l.take n).filter p = (l.filter p).take m := by
  intro n l
  induction l generalizing n with
  | nil => exact ⟨0, by simp⟩
  | cons x xs ih =>
    cases n with
    | zero => exact ⟨0, by simp⟩
    | succ n =>
      obtain ⟨m, hm⟩ := ih n
      by_cases h : p x = true
      · exact ⟨m + 1, by
          rw [List.take_succ_cons, List.filter_cons_of_pos h,
            List.filter_cons_of_pos h, List.take_succ_cons, hm]⟩
      · exact ⟨m, by
          rw [List.take_succ_cons, List.filter_cons_of_neg h,
            List.filter_cons_of_neg h, hm]⟩

/-- Stability of the sort in `find_similar`: restricted to any fixed score
value, the sorted list equals the unsorted candidate list (which is in
insertion order). -/
lemma mergeSort_filter_eq_class (F : List (Uuid × String × ℝ)) (c : ℝ) :
    (F.mergeSort simLE).filter (fun r => decide (r.2.2 = c))
      = F.filter (fun r => decide (r.2.2 = c)) := by
  set p : Uuid × String × ℝ → Bool := fun r => decide (r.2.2 = c) with hp
  have hall : ∀ r ∈ F.filter p, p r = true := fun r hr => (List.mem_filter.mp hr).2
  have hpair : (F.filter p).Pairwise (fun a b => simLE a b = true) := by
    apply List.pairwise_of_forall_mem_list
    intro x hx y hy
    have hxc : x.2.2 = c := of_decide_eq_true (hall x hx)
    have hyc : y.2.2 = c := of_decide_eq_true (hall y hy)
    simp [simLE, hxc, hyc]
  have hsub : (F.filter p).Sublist (F.mergeSort simLE) :=
    List.sublist_mergeSort simLE_trans simLE_total hpair (List.filter_sublist F)
  have h2 : (F.filter p).Sublist ((F.mergeSort simLE).filter p) := by
    have h3 := hsub.filter p
    rwa [List.filter_eq_self.mpr hall] at h3
  have hperm : List.Perm ((F.mergeSort simLE).filter p) (F.filter p) :=
    (List.mergeSort_perm F simLE).filter p
  exact (h2.eq_of_length hperm.length_eq.symm).symm

/-- C3: `find_similar` results are sorted by score descending, and within
any class of exactly equal scores the results are an initial segment of the
candidate list in insertion order (stability). -/
theorem find_similar_sorted_and_stable (s : EmbeddingsStore) (q : List ℝ)
    (t : ℝ) (n : ℕ) :
    (find_similar s q t n).Pairwise (fun x y => y.2.2 ≤ x.2.2) ∧
      ∀ c : ℝ, ∃ m,
        (find_similar s q t n).filter (fun r => decide (r.2.2 = c))
          = ((candidates s q t).filter (fun r => decide (r.2.2 = c))).take m := by
  constructor
  · have hs := List.sorted_mergeSort simLE_trans simLE_total (candidates s q t)
    have hs' : ((candidates s q t).mergeSort simLE).Pairwise
        (fun x y => y.2.2 ≤ x.2.2) :=
      hs.imp fun h => by simpa [simLE] using h
    rw [find_similar]
    exact List.Pairwise.sublist (List.take_sublist n _) hs'
  · intro c
    obtain ⟨m, hm⟩ :=
      filter_take_ex (fun r : Uuid × String × ℝ => decide (r.2.2 = c)) n
        ((candidates s q t).mergeSort simLE)
    refine ⟨m, ?_⟩
    rw [find_similar, hm, mergeSort_filter_eq_class]

/-- C1: on registration, if the durable database write fails the in-memory
store is left unchanged, and the store can change only when the durable
write succeeded — the memory insert never precedes a successful write. -/
theorem register_durable_write_ordering (u : Uuid) (o : String) (emb : List ℝ)
    (dbWrite : List ℝ → Except DbError Unit) (lockOk : Bool)
    (store : EmbeddingsStore) :
    (∀ e, dbWrite emb = Except.error e →
        (register u o (Except.ok emb) dbWrite lockOk store).2 = store) ∧
      ((register u o (Except.ok emb) dbWrite lockOk store).2 ≠ store →
        dbWrite emb = Except.ok ()) := by
  constructor
  · intro e he
    simp [register, he]
  · intro hne
    cases hdb : dbWrite emb with
    | ok u' => cases u'; rfl
    | error e => exact absurd (by simp [register, hdb]) hne

/-- C1 witness: a failing durable write on a concrete store leaves the
store's single seeded record untouched. -/
theorem register_durable_write_ordering_witness :
    (register 1 "cam" (Except.ok [1, 2])
        (fun _ => Except.error DbError.writeFailed) true
        ⟨[⟨0, "seed", [3]⟩]⟩).2 = ⟨[⟨0, "seed", [3]⟩]⟩ :=
  (register_durable_write_ordering 1 "cam" [1, 2]
      (fun _ => Except.error DbError.writeFailed) true
      ⟨[⟨0, "seed", [3]⟩]⟩).1 DbError.writeFailed rfl

/-- C5 counterexample: inserting an embedding whose length differs from the
stored one is performed, not rejected or trapped — afterwards the store
holds embeddings of lengths 2 and 3. -/
theorem add_mismatched_length_performed :
    ((EmbeddingsStore.mk [⟨0, "a", [1, 2]⟩]).add 1 "b" [1, 2, 3]).entries
        = [⟨0, "a", [1, 2]⟩, ⟨1, "b", [1, 2, 3]⟩] ∧
      ¬ ∀ x ∈ ((EmbeddingsStore.mk [⟨0, "a", [1, 2]⟩]).add 1 "b" [1, 2, 3]).entries,
          ∀ y ∈ ((EmbeddingsStore.mk [⟨0, "a", [1, 2]⟩]).add 1 "b" [1, 2, 3]).entries,
            x.embedding.length = y.embedding.length := by
  refine ⟨rfl, fun h => ?_⟩
  have h2 := h ⟨0, "a", [1, 2]⟩ (by simp [EmbeddingsStore.add])
    ⟨1, "b", [1, 2, 3]⟩ (by simp [EmbeddingsStore.add])
  simp at h2

/-- C5 amended: `add` performs no length validation — every insertion,
mismatched length or not, unconditionally appends the new record (so the
all-equal-lengths invariant is not enforced at insertion time; mismatches
are instead tolerated at query time by prefix truncation). -/
theorem add_appends_unconditionally (s : EmbeddingsStore) (u : Uuid)
    (o : String) (e : List ℝ) :
    (s.add u o e).entries = s.entries ++ [⟨u, o, e⟩] ∧
      (s.add u o e).len = s.len + 1 ∧
      (⟨u, o, e⟩ : EmbeddingEntry) ∈ (s.add u o e).entries :=
  ⟨rfl, by simp [EmbeddingsStore.add, EmbeddingsStore.len],
    by simp [EmbeddingsStore.add]⟩

/-- C10: for every scored row list, limit and non-NaN threshold, no result
of the filter/sort/truncate pipeline of `find_similar` carries a NaN
similarity — a NaN score fails the `similarity >= threshold` filter and is
excluded before sorting and truncation. -/
theorem find_similarFP_no_nan (scored : List (Uuid × String × FP)) (t : ℝ)
    (n : ℕ) : ∀ r ∈ find_similarFP scored (some t) n, r.2.2.isSome := by
  intro r hr
  rw [find_similarFP] at hr
  have h1 := List.mem_of_mem_take hr
  have h2 := List.mem_mergeSort.mp h1
  have h3 := (List.mem_filter.mp h2).2
  cases hs : r.2.2 with
  | none => rw [hs] at h3; simp [fpGe] at h3
  | some v => simp

/-- C10 witness: a NaN-scored row is dropped while a real-scored row
survives, and the surviving row's score is not NaN. -/
theorem find_similarFP_no_nan_witness :
    ((1 : Uuid), "a", (some 1 : FP)) ∈
        find_similarFP [(1, "a", some 1), (2, "b", none)] (some 0) 5 ∧
      (some (1 : ℝ) : FP).isSome := by
  have hm : ((1 : Uuid), "a", (some 1 : FP)) ∈
      find_similarFP [(1, "a", some 1), (2, "b", none)] (some 0) 5 := by
    rw [find_similarFP,
      List.filter_cons_of_pos (by simp only [fpGe, decide_eq_true_eq]; norm_num),
      List.filter_cons_of_neg (by simp [fpGe]), List.filter_nil,
      List.mergeSort_singleton]
    simp
  exact ⟨hm, find_similarFP_no_nan [(1, "a", some 1), (2, "b", none)] 0 5 _ hm⟩

/-- C6 counterexample: with a pre-existing record holding the same embedding,
insert-then-query at `threshold = 0.99, limit = 1` returns exactly one entry,
but its identifier is the earlier record's (`0`), not the inserted `1` —
the stable sort keeps the earlier-inserted equal-scoring record first. -/
theorem insert_then_query_counterexample :
    find_similar ((EmbeddingsStore.mk [⟨0, "a", [1]⟩]).add 1 "b" [1]) [1]
        (99 / 100) 1 = [(0, "a", 1)] ∧ (0 : Uuid) ≠ 1 := by
  constructor
  · have hadd : (EmbeddingsStore.mk [⟨0, "a", [1]⟩]).add 1 "b" [1]
        = EmbeddingsStore.mk [⟨0, "a", [1]⟩, ⟨1, "b", [1]⟩] := rfl
    have hcand : candidates ⟨[⟨0, "a", [1]⟩, ⟨1, "b", [1]⟩]⟩ [1] (99 / 100)
        = [(0, "a", 1), (1, "b", 1)] := by
      rw [candidates]
      simp only [List.map_cons, List.map_nil, cosine_one_one]
      rw [List.filter_cons_of_pos (by simp only [decide_eq_true_eq]; norm_num),
        List.filter_cons_of_pos (by simp only [decide_eq_true_eq]; norm_num),
        List.filter_nil]
    have hsorted : List.Pairwise (fun a b => simLE a b = true)
        [((0 : Uuid), "a", (1 : ℝ)), (1, "b", 1)] := by
      simp [List.pairwise_cons, simLE]
    rw [hadd, find_similar, hcand, List.mergeSort_of_sorted hsorted]
    rfl
  · decide

/-- Concrete evaluation: orthogonal two-dimensional vectors score zero. -/
lemma cosine_orth : cosine_similarity [1, 0] [0, 1] = 0 := by
  rw [cosine_similarity_sums]
  norm_num [Finset.sum_range_succ]

/-- C6 amended: after `insert(id, origin, emb)` with a non-zero `emb`,
`query(emb, threshold := 0.99, limit := 1)` returns exactly one entry with
identifier `id` and similarity exactly `1`, provided every previously
stored record's similarity with `emb` is below `1` (without that proviso
the single returned entry may be an earlier equal-scoring record, as the
counterexample shows). -/
theorem insert_then_query_top_one (s : EmbeddingsStore) (id : Uuid)
    (origin : String) (emb : List ℝ)
    (hnz : ∃ x ∈ emb, x ≠ 0)
    (hbelow : ∀ e ∈ s.entries, cosine_similarity emb e.embedding < 1) :
    find_similar (s.add id origin emb) emb (99 / 100) 1 = [(id, origin, 1)] := by
  have hcos : cosine_similarity emb emb = 1 := cosine_self emb hnz
  have hcand : candidates (s.add id origin emb) emb (99 / 100)
      = candidates s emb (99 / 100) ++ [(id, origin, 1)] := by
    rw [candidates, candidates, EmbeddingsStore.add]
    show (List.filter _ (List.map _ (s.entries ++ [⟨id, origin, emb⟩]))) = _
    rw [List.map_append, List.filter_append]
    congr 1
    simp only [List.map_cons, List.map_nil, hcos]
    rw [List.filter_cons_of_pos (by simp only [decide_eq_true_eq]; norm_num),
      List.filter_nil]
  have hFlt : ∀ r ∈ candidates s emb (99 / 100), r.2.2 < 1 := by
    intro r hr
    obtain ⟨hr1, _⟩ := List.mem_filter.mp hr
    obtain ⟨e, he, rfl⟩ := List.mem_map.mp hr1
    exact hbelow e he
  have hperm := List.mergeSort_perm
    (candidates s emb (99 / 100) ++ [((id : Uuid), origin, (1 : ℝ))]) simLE
  have hmem : ((id : Uuid), origin, (1 : ℝ)) ∈
      (candidates s emb (99 / 100) ++ [((id : Uuid), origin, (1 : ℝ))]).mergeSort simLE :=
    List.mem_mergeSort.mpr (by simp)
  have hsorted : ((candidates s emb (99 / 100) ++
        [((id : Uuid), origin, (1 : ℝ))]).mergeSort simLE).Pairwise
      (fun x y => y.2.2 ≤ x.2.2) :=
    (List.sorted_mergeSort simLE_trans simLE_total _).imp fun h => by
      simpa [simLE] using h
  obtain ⟨hd, tl, hL⟩ : ∃ hd tl,
      (candidates s emb (99 / 100) ++
        [((id : Uuid), origin, (1 : ℝ))]).mergeSort simLE = hd :: tl := by
    cases hLc : (candidates s emb (99 / 100) ++
        [((id : Uuid), origin, (1 : ℝ))]).mergeSort simLE with
    | nil => rw [hLc] at hmem; simp at hmem
    | cons hd tl => exact ⟨hd, tl, rfl⟩
  have hhd : hd = ((id : Uuid), origin, (1 : ℝ)) := by
    have hh : hd ∈ candidates s emb (99 / 100) ++ [((id : Uuid), origin, (1 : ℝ))] :=
      List.mem_mergeSort.mp (by rw [hL]; exact List.mem_cons_self hd tl)
    rcases List.mem_append.mp hh with hF | hnew
    · exfalso
      have hnm : ((id : Uuid), origin, (1 : ℝ)) ∈ hd :: tl := by
        rw [← hL]; exact hmem
      rcases List.mem_cons.mp hnm with heq | htl
      · have hlt := hFlt hd hF
        rw [← heq] at hlt
        norm_num at hlt
      · have hsorted' : (hd :: tl).Pairwise
            (fun x y : Uuid × String × ℝ => y.2.2 ≤ x.2.2) := hL ▸ hsorted
        have hle : ((id : Uuid), origin, (1 : ℝ)).2.2 ≤ hd.2.2 :=
          (List.pairwise_cons.mp hsorted').1 _ htl
        exact absurd hle (not_le.mpr (by simpa using hFlt hd hF))
    · simpa using hnew
  rw [find_similar, hcand, hL, hhd]
  rfl

/-- C6 witness: inserting a fresh non-zero embedding into a store whose only
record is orthogonal to it, then querying with threshold 0.99 and limit 1,
returns exactly the inserted record with similarity 1. -/
theorem insert_then_query_top_one_witness :
    find_similar ((EmbeddingsStore.mk [⟨0, "z", [0, 1]⟩]).add 7 "cam" [1, 0])
        [1, 0] (99 / 100) 1 = [(7, "cam", 1)] := by
  apply insert_then_query_top_one
  · exact ⟨1, by simp, one_ne_zero⟩
  · intro e he
    have he' : e = ⟨0, "z", [0, 1]⟩ := by simpa using he
    rw [he']
    show cosine_similarity [1, 0] [0, 1] < 1
    rw [cosine_orth]
    norm_num

/-- Evaluating `writePixel` at its own pixel coordinates yields the
normalized channel value. -/
lemma writePixel_self (img : RgbImage) (t : ℕ → ℕ → ℕ → ℕ → ℝ) (x y c : ℕ)
    (hc : c < 3) : writePixel img t (x, y) 0 c y x = chanVal c (img x y) := by
  interval_cases c <;> simp [writePixel, updT, chanVal]

/-- Evaluating `writePixel` at a different pixel's coordinates leaves the
tensor value unchanged. -/
lemma writePixel_other (img : RgbImage) (t : ℕ → ℕ → ℕ → ℕ → ℝ)
    (a : ℕ × ℕ) (x y : ℕ) (hne : ¬(a.1 = x ∧ a.2 = y)) (n c : ℕ) :
    writePixel img t a n c y x = t n c y x := by
  have hcond : ¬(y = a.2 ∧ x = a.1) := fun hpq => hne ⟨hpq.2.symm, hpq.1.symm⟩
  simp only [writePixel, updT]
  rw [if_neg, if_neg, if_neg] <;> rintro ⟨-, -, h1, h2⟩ <;> exact hcond ⟨h1, h2⟩

/-- Membership in the `enumerate_pixels` coordinate list. -/
lemma mem_pixelCoords (w h x y : ℕ) :
    ((x, y) ∈ pixelCoords w h) ↔ (x < w ∧ y < h) := by
  simp only [pixelCoords, List.mem_flatMap, List.mem_map, List.mem_range,
    Prod.mk.injEq]
  constructor
  · rintro ⟨a, ha, b, hb, rfl, rfl⟩
    exact ⟨hb, ha⟩
  · rintro ⟨hx, hy⟩
    exact ⟨y, hy, x, hx, rfl, rfl⟩

/-- The value of the `enumerate_pixels` fold at tensor index `(0, c, y, x)`:
the normalized channel value if `(x, y)` was visited, the initial value
otherwise. -/
lemma foldl_writePixel_lookup (img : RgbImage) (c y x : ℕ) (hc : c < 3) :
    ∀ (L : List (ℕ × ℕ)) (t : ℕ → ℕ → ℕ → ℕ → ℝ),
      (L.foldl (writePixel img) t) 0 c y x
        = if (x, y) ∈ L then chanVal c (img x y) else t 0 c y x := by
  intro L
  induction L with
  | nil => intro t; simp
  | cons a L ih =>
    intro t
    rw [List.foldl_cons, ih]
    by_cases hmem : (x, y) ∈ L
    · rw [if_pos hmem, if_pos (List.mem_cons_of_mem a hmem)]
    · rw [if_neg hmem]
      by_cases ha : a = (x, y)
      · subst ha
        rw [writePixel_self img t x y c hc, if_pos (List.mem_cons_self _ _)]
      · have hne : ¬(a.1 = x ∧ a.2 = y) := fun hc' =>
          ha (Prod.ext_iff.mpr hc')
        have hmc : (x, y) ∉ a :: L := by
          rw [List.mem_cons]
          rintro (h | h)
          · exact ha h.symm
          · exact hmem h
        rw [writePixel_other img t a x y hne, if_neg hmc]

/-- C7: for every pixel of the resized 112×112 image, the normalizer maps
the pixel's value `v` per channel to `(v - 127.5) / 128` with channels in
BGR order (blue in plane 0, green in plane 1, red in plane 2); consequently
a mid-gray pixel (all components in `[127, 128]`) produces tensor values of
magnitude at most `1/256` in all three channels. -/
theorem preprocess_bgr_and_midgray (img : RgbImage) (x y : ℕ)
    (hx : x < 112) (hy : y < 112) :
    (preprocess_image img 112 112 0 0 y x = ((img x y).b - 127.5) / 128 ∧
     preprocess_image img 112 112 0 1 y x = ((img x y).g - 127.5) / 128 ∧
     preprocess_image img 112 112 0 2 y x = ((img x y).r - 127.5) / 128) ∧
    ((127 ≤ (img x y).r ∧ (img x y).r ≤ 128) →
     (127 ≤ (img x y).g ∧ (img x y).g ≤ 128) →
     (127 ≤ (img x y).b ∧ (img x y).b ≤ 128) →
     ∀ c < 3, |preprocess_image img 112 112 0 c y x| ≤ 1 / 256) := by
  have hmem : (x, y) ∈ pixelCoords 112 112 :=
    (mem_pixelCoords 112 112 x y).mpr ⟨hx, hy⟩
  have hv : ∀ c, c < 3 → preprocess_image img 112 112 0 c y x
      = chanVal c (img x y) := by
    intro c hc
    rw [preprocess_image, foldl_writePixel_lookup img c y x hc, if_pos hmem]
  refine ⟨⟨?_, ?_, ?_⟩, ?_⟩
  · rw [hv 0 (by norm_num)]; simp [chanVal]
  · rw [hv 1 (by norm_num)]; simp [chanVal]
  · rw [hv 2 (by norm_num)]; simp [chanVal]
  · intro hr hg hb c hc
    rw [hv c hc]
    interval_cases c
    · rw [show chanVal 0 (img x y) = ((img x y).b - 127.5) / 128 from by
        simp [chanVal]]
      rw [abs_le]
      constructor <;> [linarith [hb.1]; linarith [hb.2]]
    · rw [show chanVal 1 (img x y) = ((img x y).g - 127.5) / 128 from by
        simp [chanVal]]
      rw [abs_le]
      constructor <;> [linarith [hg.1]; linarith [hg.2]]
    · rw [show chanVal 2 (img x y) = ((img x y).r - 127.5) / 128 from by
        simp [chanVal]]
      rw [abs_le]
      constructor <;> [linarith [hr.1]; linarith [hr.2]]

/-- C7 witness: at a concrete mid-gray pixel `(r, g, b) = (127, 128, 127)`,
channel plane 0 holds the normalized blue value and channel plane 1 is
within `1/256` of zero. -/
theorem preprocess_bgr_and_midgray_witness :
    preprocess_image (fun _ _ => Pixel.mk 127 128 127) 112 112 0 0 0 0
        = ((127 : ℝ) - 127.5) / 128 ∧
      |preprocess_image (fun _ _ => Pixel.mk 127 128 127) 112 112 0 1 0 0|
        ≤ 1 / 256 := by
  have h := preprocess_bgr_and_midgray (fun _ _ => Pixel.mk 127 128 127) 0 0
    (by norm_num) (by norm_num)
  exact ⟨h.1.1, h.2 (by norm_num) (by norm_num) (by norm_num) 1 (by norm_num)⟩

end OwlFaceRec
